import Mathlib

/-!
Verification of the `pyftpkit` library against its natural-language
specification.  Python functions from `src/pyftpkit` are embedded shallowly:
strings are `List Char` / `String`, bytes are `Nat`, fallible Python code
returns `Except`, and the FTP server / local effects are passed in as
explicit oracle functions.
-/

set_option maxHeartbeats 1000000

namespace Pyftpkit

/-! ## Python string primitives

Helpers mirroring the Python `str` methods used by `pyftpkit/_pycurl.py`
and `pyftpkit/ftpfs.py`. -/

/-- Concatenation map over lists (Python generator flattening). -/
def lconcatMap (f : α → List β) : List α → List β
  | [] => []
  | a :: l => f a ++ lconcatMap f l

@[simp] theorem lconcatMap_nil (f : α → List β) : lconcatMap f [] = [] := rfl

@[simp] theorem lconcatMap_cons (f : α → List β) (a : α) (l : List α) :
    lconcatMap f (a :: l) = f a ++ lconcatMap f l := rfl

/-- Characters stripped by Python `str.strip()` (the ASCII whitespace set). -/
def pyIsSpace (c : Char) : Bool :=
  c = ' ' || c = '\t' || c = '\n' || c = '\r' || c = '\x0b' || c = '\x0c'

/-- Python `str.strip()`: remove leading and trailing whitespace. -/
def pyStrip (l : List Char) : List Char :=
  ((l.dropWhile pyIsSpace).reverse.dropWhile pyIsSpace).reverse

/-- Python `str.lstrip("/")`: remove all leading slashes. -/
def pyLstripSlash (l : List Char) : List Char :=
  l.dropWhile (fun c => c = '/')

/-- UTF-8 encoding of one character as a byte (`Nat`) list, as Python's
`str.encode("utf-8")` produces inside `urllib.parse.quote`. -/
def utf8Bytes (c : Char) : List Nat :=
  let n := c.toNat
  if n < 128 then [n]
  else if n < 2048 then [192 + n / 64, 128 + n % 64]
  else if n < 65536 then [224 + n / 4096, 128 + (n / 64) % 64, 128 + n % 64]
  else [240 + n / 262144, 128 + (n / 4096) % 64, 128 + (n / 64) % 64, 128 + n % 64]

/-- Bytes left unencoded by `urllib.parse.quote(-, safe="/")`: the always-safe
set (ASCII letters, digits, `_`, `.`, `-`, `~`) plus `/`. -/
def isSafeByte (b : Nat) : Bool :=
  (65 ≤ b && b ≤ 90) || (97 ≤ b && b ≤ 122) || (48 ≤ b && b ≤ 57) ||
    b = 95 || b = 46 || b = 45 || b = 126 || b = 47

/-- Upper-case hexadecimal digit, as `urllib.parse.quote` emits. -/
def hexUpper (n : Nat) : Char :=
  if n < 10 then Char.ofNat (48 + n) else Char.ofNat (55 + n)

/-- Percent-encoding of a single byte by `urllib.parse.quote(-, safe="/")`. -/
def quoteByte (b : Nat) : List Char :=
  if isSafeByte b then [Char.ofNat b] else ['%', hexUpper (b / 16), hexUpper (b % 16)]

/-- Python `urllib.parse.quote(s, safe="/")`. -/
def pyQuote (l : List Char) : List Char :=
  lconcatMap quoteByte (lconcatMap utf8Bytes l)

/-- Python `urllib.parse.urlunparse(("ftp", netloc, url, "", "", ""))`,
specialised to scheme `ftp` and empty params, query and fragment, following
CPython's `urlunsplit`. -/
def pyUrlunsplitFtp (netloc url : List Char) : List Char :=
  let url1 :=
    if netloc ≠ [] ∨ (url ≠ [] ∧ url.take 2 = ['/', '/']) then
      '/' :: '/' :: (netloc ++ (if url ≠ [] ∧ url.take 1 ≠ ['/'] then '/' :: url else url))
    else url
  'f' :: 't' :: 'p' :: ':' :: url1

/-! ## C3: `PycURL._ensure_ftp_url` (`src/pyftpkit/_pycurl.py`) -/

/-- Embedding of `PycURL._ensure_ftp_url`.  The connection parameters supply
the host and port; the path is the input. -/
def pyEnsureFtpUrl (host : String) (port : Int) (path : String) : String :=
  if "ftp://".data.isPrefixOf path.data then path
  else
    let stripped := pyLstripSlash (pyStrip path.data)
    let normpath := pyQuote (if stripped = [] then ['/'] else stripped)
    let netloc :=
      if port ≠ 0 ∧ 0 < port then host.data ++ ':' :: (toString port).data else host.data
    String.mk (pyUrlunsplitFtp netloc normpath)

/-- URL construction as the specification words it: strip surrounding
whitespace and leading slashes, percent-encode preserving `/`, and return
`ftp://<host>[:port]/<path>` (just `ftp://<host>[:port]/` when the stripped
path is empty). -/
def claimFtpUrl (host : String) (port : Int) (path : String) : String :=
  if "ftp://".data.isPrefixOf path.data then path
  else
    let stripped := pyLstripSlash (pyStrip path.data)
    let base :=
      if 0 < port then "ftp://".data ++ host.data ++ ':' :: (toString port).data
      else "ftp://".data ++ host.data
    String.mk (base ++ '/' :: (if stripped = [] then [] else pyQuote stripped))

theorem dropWhile_head_false {p : α → Bool} :
    ∀ {l : List α} {c : α} {cs : List α}, l.dropWhile p = c :: cs → p c = false := by
  intro l
  induction l with
  | nil => intro c cs h; simp [List.dropWhile] at h
  | cons a l ih =>
    intro c cs h
    by_cases ha : p a
    · rw [List.dropWhile_cons_of_pos ha] at h
      exact ih h
    · rw [List.dropWhile_cons_of_neg ha] at h
      cases h
      simpa using ha

theorem utf8Bytes_shape (c : Char) :
    ∃ b bs, utf8Bytes c = b :: bs ∧ (b = c.toNat ∨ 192 ≤ b) := by
  unfold utf8Bytes
  by_cases h1 : c.toNat < 128
  · exact ⟨c.toNat, [], by simp [h1], Or.inl rfl⟩
  · by_cases h2 : c.toNat < 2048
    · exact ⟨192 + c.toNat / 64, [128 + c.toNat % 64], by simp [h1, h2], Or.inr (by omega)⟩
    · by_cases h3 : c.toNat < 65536
      · exact ⟨224 + c.toNat / 4096, [128 + (c.toNat / 64) % 64, 128 + c.toNat % 64],
          by simp [h1, h2, h3], Or.inr (by omega)⟩
      · exact ⟨240 + c.toNat / 262144,
          [128 + (c.toNat / 4096) % 64, 128 + (c.toNat / 64) % 64, 128 + c.toNat % 64],
          by simp [h1, h2, h3], Or.inr (by omega)⟩

theorem quoteByte_head_ne_slash {c : Char} (hc : c ≠ '/') {b : Nat}
    (hb : b = c.toNat ∨ 192 ≤ b) :
    ∃ d ds, quoteByte b = d :: ds ∧ d ≠ '/' := by
  unfold quoteByte
  by_cases hs : isSafeByte b
  · refine ⟨Char.ofNat b, [], by simp [hs], ?_⟩
    rcases hb with rfl | h
    · rw [Char.ofNat_toNat]; exact hc
    · exfalso
      unfold isSafeByte at hs
      simp only [Bool.or_eq_true, Bool.and_eq_true, decide_eq_true_eq] at hs
      omega
  · exact ⟨'%', [hexUpper (b / 16), hexUpper (b % 16)], by simp [hs], by decide⟩

theorem pyQuote_head_ne_slash {c : Char} (cs : List Char) (hc : c ≠ '/') :
    ∃ d ds, pyQuote (c :: cs) = d :: ds ∧ d ≠ '/' := by
  obtain ⟨b, bs, hb, hcase⟩ := utf8Bytes_shape c
  obtain ⟨d, ds, hd, hdne⟩ := quoteByte_head_ne_slash hc hcase
  refine ⟨d, ds ++ lconcatMap quoteByte (bs ++ lconcatMap utf8Bytes cs), ?_, hdne⟩
  unfold pyQuote
  rw [lconcatMap_cons, hb, List.cons_append]
  rw [lconcatMap_cons, hd]
  simp

theorem pyUrlunsplitFtp_cons {netloc url : List Char} {d : Char} {ds : List Char}
    (hn : netloc ≠ []) (hurl : url = d :: ds) (hd : d ≠ '/') :
    pyUrlunsplitFtp netloc url
      = 'f' :: 't' :: 'p' :: ':' :: '/' :: '/' :: (netloc ++ '/' :: url) := by
  subst hurl
  unfold pyUrlunsplitFtp
  rw [if_pos (Or.inl hn), if_pos]
  constructor
  · simp
  · simp [List.take, hd]

theorem pyUrlunsplitFtp_slash {netloc : List Char} (hn : netloc ≠ []) :
    pyUrlunsplitFtp netloc ['/']
      = 'f' :: 't' :: 'p' :: ':' :: '/' :: '/' :: (netloc ++ ['/']) := by
  unfold pyUrlunsplitFtp
  rw [if_pos (Or.inl hn), if_neg]
  simp [List.take]

theorem data_ne_nil_of_ne_empty {host : String} (hh : host ≠ "") : host.data ≠ [] := by
  intro h
  exact hh (String.ext (h.trans rfl))

/-- C3: for every input path string, `_ensure_ftp_url` returns the input
unchanged when it already begins with `ftp://`; otherwise it strips
surrounding whitespace and leading `/` (keeping `/` when the stripped path
is empty), percent-encodes reserved characters preserving `/`, and returns
`ftp://<host>:<port>/<path>` when `port > 0` and `ftp://<host>/<path>` when
`port ≤ 0`; in particular the two examples from the claim hold. -/
theorem ensure_ftp_url_spec :
    (∀ (host : String) (port : Int) (path : String),
        "ftp://".data.isPrefixOf path.data → pyEnsureFtpUrl host port path = path) ∧
    (∀ (host : String) (port : Int) (path : String), host ≠ "" →
        pyEnsureFtpUrl host port path = claimFtpUrl host port path) ∧
    pyEnsureFtpUrl "h" 0 "1/2/test.txt" = "ftp://h/1/2/test.txt" ∧
    pyEnsureFtpUrl "h" 21 "#backet" = "ftp://h:21/%23backet" := by
  refine ⟨?_, ?_, by decide, by decide⟩
  · intro host port path hpre
    unfold pyEnsureFtpUrl
    rw [if_pos hpre]
  · intro host port path hh
    unfold pyEnsureFtpUrl claimFtpUrl
    by_cases hpre : "ftp://".data.isPrefixOf path.data
    · rw [if_pos hpre, if_pos hpre]
    · rw [if_neg hpre, if_neg hpre]
      dsimp only
      have hd : host.data ≠ [] := data_ne_nil_of_ne_empty hh
      have hport : (port ≠ 0 ∧ 0 < port) ↔ 0 < port := by omega
      set netloc :=
        if port ≠ 0 ∧ 0 < port then host.data ++ ':' :: (toString port).data else host.data
        with hnetloc
      have hn : netloc ≠ [] := by
        rw [hnetloc]
        split
        · simp
        · exact hd
      have hbase : (if 0 < port then "ftp://".data ++ host.data ++ ':' :: (toString port).data
          else "ftp://".data ++ host.data) = "ftp://".data ++ netloc := by
        rw [hnetloc]
        by_cases hp : 0 < port
        · rw [if_pos hp, if_pos (hport.mpr hp), List.append_assoc]
        · rw [if_neg hp, if_neg (fun h => hp (hport.mp h))]
      rw [hbase]
      by_cases hs : pyLstripSlash (pyStrip path.data) = []
      · rw [if_pos hs, if_pos hs]
        have hq : pyQuote ['/'] = ['/'] := by decide
        rw [hq, pyUrlunsplitFtp_slash hn]
        simp
      · rw [if_neg hs, if_neg hs]
        obtain ⟨c, cs, hcons⟩ := List.exists_cons_of_ne_nil hs
        have hc : c ≠ '/' := by
          have := dropWhile_head_false (p := fun c => decide (c = '/')) hcons
          simpa using this
        rw [hcons]
        obtain ⟨d, ds, hqd, hdne⟩ := pyQuote_head_ne_slash cs hc
        rw [hqd, pyUrlunsplitFtp_cons hn rfl hdne]
        simp

/-- Concrete instantiation of `ensure_ftp_url_spec`, discharging its
hypotheses at explicit inputs. -/
theorem ensure_ftp_url_spec_witness :
    pyEnsureFtpUrl "h" 21 "ftp://h:21/a" = "ftp://h:21/a" ∧
    pyEnsureFtpUrl "h" 21 "/1/2/3/test.txt" = claimFtpUrl "h" 21 "/1/2/3/test.txt" :=
  ⟨ensure_ftp_url_spec.1 "h" 21 "ftp://h:21/a" (by decide),
   ensure_ftp_url_spec.2.1 "h" 21 "/1/2/3/test.txt" (by decide)⟩

/-! ## C7: `ConnectionParameters.port` validation (`connection_parameters.py`) -/

/-- Embedding of the pydantic validation applied to an explicitly provided
`port` value: the field is declared `NonNegativeInt` (`0 ≤ v`) refined by
`Field(0, gt=0)` (`0 < v`), so a supplied value is accepted exactly when
both constraints hold.  There is no upper bound in the source. -/
def portAccepts (v : Int) : Bool :=
  decide (0 ≤ v) && decide (0 < v)

/-- The declared default for `port`, used when the field is omitted;
pydantic does not validate defaults (`validate_default` is off), so the
default `0` stands even though it violates `gt=0`. -/
def portDefault : Int := 0

/-- Acceptance predicate as the claim words it: an integer in `[1, 65535]`
or the value `0`. -/
def claimPortAccepts (v : Int) : Prop :=
  (1 ≤ v ∧ v ≤ 65535) ∨ v = 0

instance : DecidablePred claimPortAccepts := fun v => by
  unfold claimPortAccepts
  infer_instance

/-- C7 counterexample: the code accepts `65536` (no upper bound), which the
claim rejects, and rejects an explicitly provided `0`, which the claim
accepts. -/
theorem port_validation_counterexample :
    portAccepts 65536 = true ∧ ¬ claimPortAccepts 65536 ∧
    portAccepts 0 = false ∧ claimPortAccepts 0 := by
  decide

/-- C7 (amended): `ConnectionParameters` validation accepts an explicitly
provided `port` exactly when it is a positive integer (with no upper
bound); an explicit `0` is rejected, and `0` only arises as the unvalidated
default when the field is omitted (meaning "omit the port" in URLs). -/
theorem port_validation_amended :
    (∀ v : Int, portAccepts v = true ↔ 0 < v) ∧ portDefault = 0 := by
  refine ⟨fun v => ?_, rfl⟩
  unfold portAccepts
  constructor
  · intro h
    simp only [Bool.and_eq_true, decide_eq_true_eq] at h
    exact h.2
  · intro h
    simp only [Bool.and_eq_true, decide_eq_true_eq]
    omega

/-- Concrete instantiation of `port_validation_amended`. -/
theorem port_validation_amended_witness : portAccepts 21 = true :=
  (port_validation_amended.1 21).mpr (by decide)

/-! ## C10: `FTPLoader` and its `log_interval` (`loader.py`) -/

/-- A Python value passed for `log_interval`: an `int`, or any non-integer
value (identified by a tag). -/
inductive PyVal where
  | int (n : Int)
  | other (tag : String)
deriving DecidableEq

structure FTPLoaderState where
  log_interval : PyVal
deriving DecidableEq

/-- Embedding of `FTPLoader.__init__`: the constructor assigns
`self._log_interval = log_interval` directly, bypassing the property
setter, so every value is stored without validation. -/
def loaderInit (v : PyVal) : FTPLoaderState :=
  { log_interval := v }

/-- Embedding of the `log_interval` property setter:
`if not isinstance(value, int) or value <= 0: raise ValueError(...)`. -/
def setLogInterval (s : FTPLoaderState) (v : PyVal) : Except String FTPLoaderState :=
  match v with
  | .int n =>
      if n ≤ 0 then .error "Logging interval must be a positive integer."
      else .ok { s with log_interval := .int n }
  | .other _ => .error "Logging interval must be a positive integer."

/-- One pass of the progress loop in `FTPLoader.download`/`upload`: for each
completed transfer the code increments `index` and evaluates
`index % self._log_interval == 0` (Python `%` follows the divisor's sign
and raises `ZeroDivisionError` on a zero divisor).  Returns the indices at
which a progress line is logged. -/
def progressLoop (li : Int) : Nat → Nat → List Nat → Except String (List Nat)
  | 0, _, acc => .ok acc
  | k + 1, i, acc =>
      if li = 0 then .error "ZeroDivisionError: integer modulo by zero"
      else
        progressLoop li k (i + 1)
          (if Int.fmod (Int.ofNat (i + 1)) li = 0 then acc ++ [i + 1] else acc)

/-- Embedding of the progress-logging part of a batch transfer of `n`
files: `index % self._log_interval` with the stored (possibly invalid)
`log_interval` value. -/
def batchProgress (v : PyVal) (n : Nat) : Except String (List Nat) :=
  match v with
  | .int li => progressLoop li n 0 []
  | .other _ => .error "TypeError: unsupported operand type for %"

/-- C10: the `FTPLoader` constructor stores any `log_interval` value without
the validation the property setter performs; a batch transfer of at least
one file then evaluates `index % log_interval`, which raises
`ZeroDivisionError` when the stored value is `0`; only assignment through
the property setter rejects non-positive or non-integer values with
`ValueError`. -/
theorem loader_log_interval_spec :
    (∀ v : Int, v ≤ 0 → (loaderInit (.int v)).log_interval = .int v) ∧
    (∀ t : String, (loaderInit (.other t)).log_interval = .other t) ∧
    (∀ n : Nat, 1 ≤ n →
      batchProgress ((loaderInit (.int 0)).log_interval) n
        = .error "ZeroDivisionError: integer modulo by zero") ∧
    (∀ s v, v ≤ 0 →
      setLogInterval s (.int v) = .error "Logging interval must be a positive integer.") ∧
    (∀ s t, setLogInterval s (.other t)
        = .error "Logging interval must be a positive integer.") ∧
    (∀ s v, 0 < v →
      setLogInterval s (.int v) = .ok { s with log_interval := .int v }) := by
  refine ⟨fun v _ => rfl, fun t => rfl, ?_, ?_, fun s t => rfl, ?_⟩
  · intro n hn
    match n, hn with
    | k + 1, _ => rfl
  · intro s v hv
    simp [setLogInterval, hv]
  · intro s v hv
    have hv' : ¬ v ≤ 0 := by omega
    simp [setLogInterval, hv']

/-- Concrete instantiation of `loader_log_interval_spec`. -/
theorem loader_log_interval_spec_witness :
    (loaderInit (.int 0)).log_interval = .int 0 ∧
    batchProgress ((loaderInit (.int 0)).log_interval) 3
      = .error "ZeroDivisionError: integer modulo by zero" ∧
    setLogInterval (loaderInit (.int 10)) (.int (-10))
      = .error "Logging interval must be a positive integer." :=
  ⟨loader_log_interval_spec.1 0 (by decide),
   loader_log_interval_spec.2.2.1 3 (by decide),
   loader_log_interval_spec.2.2.2.1 (loaderInit (.int 10)) (-10) (by decide)⟩

/-! ## C5: `FTPFileSystem.makedirs` error handling (`ftpfs.py`) -/

/-- The `ftplib` exception classes that can escape `cwd`/`mkd`; all of them
are members of `ftplib.all_errors`, but only `error_perm` is caught around
`MKD` in `makedirs`. -/
inductive FtplibError where
  | errorPerm
  | errorTemp
  | errorProto
  | errorReply
  | oserror
deriving DecidableEq

/-- Outcome of one directory step of `FTPFileSystem.makedirs`. -/
inductive MakedirsOutcome where
  | existed
  | created
  | ftpError (msg : String)
  | raw (e : FtplibError)
deriving DecidableEq

/-- Embedding of the per-directory body of `FTPFileSystem.makedirs`:
`CWD` guarded by `except ftplib.all_errors`; on failure `MKD` guarded by
`except ftplib.error_perm` only, wrapping that single case in `FTPError`. -/
def makedirsStep (cwd mkd : String → Except FtplibError Unit) (dirpath : String) :
    MakedirsOutcome :=
  match cwd dirpath with
  | .ok _ => .existed
  | .error _ =>
    match mkd dirpath with
    | .ok _ => .created
    | .error .errorPerm =>
        .ftpError ("Unable to create directory on FTP server: " ++ dirpath ++ ".")
    | .error e => .raw e

/-- C5 counterexample: when `CWD` fails and `MKD` fails with
`ftplib.error_temp` (an FTP protocol error that is not `error_perm`),
`makedirs` lets the raw `ftplib` exception escape instead of raising
`FTPError`, so an FTP-level `MKD` failure does escape unwrapped. -/
theorem makedirs_counterexample :
    makedirsStep (fun _ => .error .errorTemp) (fun _ => .error .errorTemp) "/x"
      = .raw .errorTemp ∧
    MakedirsOutcome.raw .errorTemp
      ≠ .ftpError "Unable to create directory on FTP server: /x." := by
  decide

/-- C5 (amended): when the `CWD` probe fails and the subsequent `MKD`
attempt fails with a permission error (`ftplib.error_perm`), `makedirs`
raises `FTPError("Unable to create directory on FTP server: <path>.")`;
an `MKD` failure of any other `ftplib` class propagates as the raw
exception. -/
theorem makedirs_mkd_error_spec :
    (∀ (cwd mkd : String → Except FtplibError Unit) (d : String) (e : FtplibError),
      cwd d = .error e → mkd d = .error .errorPerm →
      makedirsStep cwd mkd d
        = .ftpError ("Unable to create directory on FTP server: " ++ d ++ ".")) ∧
    (∀ (cwd mkd : String → Except FtplibError Unit) (d : String) (e e' : FtplibError),
      cwd d = .error e → mkd d = .error e' → e' ≠ .errorPerm →
      makedirsStep cwd mkd d = .raw e') := by
  constructor
  · intro cwd mkd d e hcwd hmkd
    unfold makedirsStep
    rw [hcwd, hmkd]
  · intro cwd mkd d e e' hcwd hmkd hne
    unfold makedirsStep
    rw [hcwd, hmkd]
    cases e' <;> simp_all

/-- Concrete instantiation of `makedirs_mkd_error_spec`. -/
theorem makedirs_mkd_error_spec_witness :
    makedirsStep (fun _ => .error .errorTemp) (fun _ => .error .errorPerm) "/x"
      = .ftpError "Unable to create directory on FTP server: /x." :=
  makedirs_mkd_error_spec.1 (fun _ => .error .errorTemp) (fun _ => .error .errorPerm)
    "/x" .errorTemp rfl rfl

/-! ## C6: `FTPPoolExecutor` open/close idempotence (`_pool.py`) -/

/-- Python `set` as an insertion-ordered duplicate-free list. -/
def setInsert (a : Nat) (l : List Nat) : List Nat :=
  if a ∈ l then l else l ++ [a]

/-- Collect a list into a Python `set`. -/
def setOfList (l : List Nat) : List Nat :=
  l.foldl (fun acc a => setInsert a acc) []

structure PoolState where
  hasPool : Bool
  closed : Bool
  queue : List ℕ
  tracked : List ℕ
  nextId : ℕ
  connectCount : ℕ
  closedConns : List ℕ
deriving DecidableEq

/-- The freshly constructed `FTPPoolExecutor`: `_closed = True` and no
`_pool` attribute yet. -/
def poolInitState : PoolState :=
  { hasPool := false, closed := true, queue := [], tracked := [],
    nextId := 0, connectCount := 0, closedConns := [] }

/-- Embedding of a successful `FTPPoolExecutor.open` with
`n = max_connections`: `if not self._closed: return` makes it a no-op on an
open pool; otherwise a fresh ready-queue is created, `n` `_connect` jobs
run, and every new connection is added to the tracking set and enqueued,
after which `_closed` is cleared. -/
def poolOpen (n : Nat) (s : PoolState) : PoolState :=
  if s.closed then
    let fresh := (List.range n).map (fun i => s.nextId + i)
    { hasPool := true, closed := false, queue := fresh,
      tracked := s.tracked ++ fresh, nextId := s.nextId + n,
      connectCount := s.connectCount + n, closedConns := s.closedConns }
  else s

/-- Embedding of `FTPPoolExecutor.close`: a no-op when `_pool` was never
created or when `_closed` is already set; otherwise the ready-queue is
drained into a set, unified with the tracking set, the tracking set is
cleared, and `_close_connection` runs once per collected connection. -/
def poolClose (s : PoolState) : PoolState :=
  if s.hasPool then
    if s.closed then s
    else
      let collected := setOfList (s.queue ++ s.tracked)
      { s with queue := [], tracked := [],
               closedConns := s.closedConns ++ collected, closed := true }
  else s

theorem setFold_noop {l acc : List ℕ} (h : ∀ a ∈ l, a ∈ acc) :
    l.foldl (fun acc a => setInsert a acc) acc = acc := by
  induction l generalizing acc with
  | nil => rfl
  | cons a l ih =>
    rw [List.foldl_cons]
    have ha : setInsert a acc = acc := by
      unfold setInsert
      rw [if_pos (h a (by simp))]
    rw [ha]
    exact ih fun b hb => h b (by simp [hb])

theorem setFold_fresh {l acc : List ℕ} (hn : l.Nodup) (h : ∀ a ∈ l, a ∉ acc) :
    l.foldl (fun acc a => setInsert a acc) acc = acc ++ l := by
  induction l generalizing acc with
  | nil => simp
  | cons a l ih =>
    rw [List.foldl_cons]
    have ha : setInsert a acc = acc ++ [a] := by
      unfold setInsert
      rw [if_neg (h a (by simp))]
    rw [ha]
    have hl : l.Nodup := (List.nodup_cons.mp hn).2
    have hmem : ∀ b ∈ l, b ∉ acc ++ [a] := by
      intro b hb
      simp only [List.mem_append, List.mem_singleton]
      rintro (hacc | rfl)
      · exact h b (by simp [hb]) hacc
      · exact (List.nodup_cons.mp hn).1 hb
    rw [ih hl hmem, List.append_assoc]
    rfl

theorem setOfList_doubled {l : List ℕ} (hn : l.Nodup) : setOfList (l ++ l) = l := by
  unfold setOfList
  rw [List.foldl_append]
  have h1 : l.foldl (fun acc a => setInsert a acc) [] = l := by
    have h2 : l.foldl (fun acc a => setInsert a acc) [] = [] ++ l :=
      setFold_fresh hn (by simp)
    simpa using h2
  rw [h1]
  exact setFold_noop fun a ha => ha

/-- C6: two consecutive `open` calls connect exactly `max_connections`
times in total (the second call is a no-op while the pool is open), and
two consecutive `close` calls pass each live connection to
`_close_connection` exactly once (the second call is a no-op while the
pool is closed). -/
theorem pool_idempotence_spec (n : Nat) :
    poolOpen n (poolOpen n poolInitState) = poolOpen n poolInitState ∧
    (poolOpen n (poolOpen n poolInitState)).connectCount = n ∧
    (poolClose (poolClose (poolOpen n (poolOpen n poolInitState)))).closedConns
      = (poolOpen n poolInitState).tracked ∧
    (poolClose (poolClose (poolOpen n (poolOpen n poolInitState)))).closedConns.Nodup ∧
    poolClose (poolClose (poolOpen n (poolOpen n poolInitState)))
      = poolClose (poolOpen n (poolOpen n poolInitState)) := by
  have hfresh : (List.range n).map (fun i => poolInitState.nextId + i) = List.range n := by
    simp [poolInitState]
  have hnodup : (List.range n).Nodup := List.nodup_range n
  have hs1 : poolOpen n poolInitState =
      { hasPool := true, closed := false, queue := List.range n,
        tracked := List.range n, nextId := n, connectCount := n, closedConns := [] } := by
    simp [poolOpen, poolInitState]
  have hs2 : poolOpen n (poolOpen n poolInitState) = poolOpen n poolInitState := by
    rw [hs1]
    unfold poolOpen
    rfl
  have hs3 : poolClose (poolOpen n (poolOpen n poolInitState)) =
      { hasPool := true, closed := true, queue := [], tracked := [],
        nextId := n, connectCount := n, closedConns := List.range n } := by
    rw [hs2, hs1]
    simp [poolClose, setOfList_doubled hnodup]
  have hs4 : poolClose (poolClose (poolOpen n (poolOpen n poolInitState)))
      = poolClose (poolOpen n (poolOpen n poolInitState)) := by
    rw [hs3]
    unfold poolClose
    rfl
  refine ⟨hs2, ?_, ?_, ?_, hs4⟩
  · rw [hs2, hs1]
  · rw [hs4, hs3, hs1]
  · rw [hs4, hs3]
    exact hnodup

/-! ## C1: error propagation in `FTPFileSystem.walk` (`ftpfs.py`) -/

/-- One `(dirpath, dirs, nondirs)` tuple produced by `walk`. -/
abbrev WalkOutput := String × List String × List String

structure WalkState where
  queue : List String
  outputs : List WalkOutput
  stop : Bool
deriving DecidableEq

/-- Embedding of the `_worker` loop of `FTPFileSystem.walk` under a
deterministic single-worker schedule.  Each iteration dequeues a directory
and runs `_listdir`; on success the tuple is put on the output queue and
the subdirectories are enqueued; on any exception the handler logs, sets
the stop event, puts nothing on the output queue and continues, after
which the `while not stop_event.is_set()` guard exits the loop normally.
The `Option String` component is the exception escaping the worker
coroutine (what the driver later sees as `task.exception()`): the body
swallows listing errors, so the worker always finishes with `none`. -/
def workerRun (listdir : String → Except String (List String × List String)) :
    Nat → WalkState → WalkState × Option String
  | 0, s => (s, none)
  | fuel + 1, s =>
      if s.stop then (s, none)
      else
        match s.queue with
        | [] => (s, none)
        | d :: rest =>
            match listdir d with
            | .ok (dirs, nondirs) =>
                workerRun listdir fuel
                  { queue := rest ++ dirs,
                    outputs := s.outputs ++ [(d, dirs, nondirs)],
                    stop := s.stop }
            | .error _ =>
                workerRun listdir fuel
                  { queue := rest, outputs := s.outputs, stop := true }

/-- Embedding of the `walk` driver for that schedule: once `queue.join()`
completes, the only error path raises
`RuntimeError("An FTP worker task encountered an unexpected error.")` and
fires solely when a worker task finished with a non-`None` exception; the
driver then drains the output queue and returns. -/
def walkRun (listdir : String → Except String (List String × List String))
    (fuel : Nat) (root : String) : Except String (List WalkOutput) :=
  let r := workerRun listdir fuel { queue := [root], outputs := [], stop := false }
  match r.2 with
  | some _ => .error "An FTP worker task encountered an unexpected error."
  | none => .ok r.1.outputs

/-- A small concrete remote tree used to exercise the walk model. -/
def demoListdir : String → Except String (List String × List String)
  | "/" => .ok (["/a"], ["/f.txt"])
  | "/a" => .ok ([], ["/a/g.txt"])
  | _ => .ok ([], [])

/-- C1 (code bug): with a listing oracle that raises on the root directory,
the worker logs the exception, sets the stop flag, enqueues no sentinel and
exits normally, so the driver sees no worker exception and `walk` returns
with no outputs and no error — it terminates silently — whereas the claim
(and `test_walk_no_permission`, which expects
`RuntimeError("Walk worker error.")`) requires the failure to be re-raised
to the caller.  On a healthy tree the same model produces the expected
tuples. -/
theorem walk_silent_on_listing_failure :
    walkRun (fun _ => .error "error_perm 550") 5 "/" = .ok [] ∧
    (workerRun (fun _ => .error "error_perm 550") 5
        { queue := ["/"], outputs := [], stop := false }).1.stop = true ∧
    (workerRun (fun _ => .error "error_perm 550") 5
        { queue := ["/"], outputs := [], stop := false }).1.outputs = [] ∧
    walkRun demoListdir 5 "/"
      = .ok [("/", ["/a"], ["/f.txt"]), ("/a", [], ["/a/g.txt"])] :=
  ⟨rfl, rfl, rfl, rfl⟩

/-! ## C2: the directory-removal phase of `FTPFileSystem.rmtree`
(`ftpfs.py`) -/

/-- Embedding of the loop
`while dirs: dirpath = dirs.pop(); ftp.rmd(str(dirpath))` of `rmtree`,
processing the collected deque from the right (LIFO).  The first component
is the sequence of `RMD` commands issued, in order; the second is the
`ftplib` error, if any, that aborted the loop (wrapped by the code as
`FTPError("Failed to remove directory ...")`). -/
def rmdLoop (rmd : String → Except FtplibError Unit) :
    List String → List String → List String × Option FtplibError
  | issued, [] => (issued, none)
  | issued, d :: rest =>
      match rmd d with
      | .ok _ => rmdLoop rmd (issued ++ [d]) rest
      | .error e => (issued ++ [d], some e)

/-- The directory-removal phase of `rmtree` applied to the deque of
directories collected from `walk` (append order: every parent precedes its
children). -/
def rmtreeRmdPhase (rmd : String → Except FtplibError Unit) (dirs : List String) :
    List String × Option FtplibError :=
  rmdLoop rmd [] dirs.reverse

/-- An FTP server that refuses to remove the root directory, as pyftpdlib
(the server used by the repository's test suite) does with
`550 Can't remove root directory.`, and removes everything else. -/
def rootRefusingRmd : String → Except FtplibError Unit :=
  fun d => if d = "/" then .error .errorPerm else .ok ()

/-- C2 (code bug): the loop does pop the collected deque in LIFO order
(children before parents), but it never skips `/`: for `rmtree("/")` the
deque starts with `/` itself and `RMD /` is issued last; with a server
that refuses to remove the root the phase fails with an `ftplib` error
(wrapped as `FTPError`), whereas the claim — and `test_rmtree`, which runs
`rmtree("/")` against pyftpdlib and expects success — requires `/` to be
skipped. -/
theorem rmtree_rmd_spec :
    (∀ dirs : List String,
        rmtreeRmdPhase (fun _ => .ok ()) dirs = (dirs.reverse, none)) ∧
    rmtreeRmdPhase rootRefusingRmd ["/", "/a", "/b", "/a/c"]
      = (["/a/c", "/b", "/a", "/"], some .errorPerm) ∧
    "/" ∈ (rmtreeRmdPhase rootRefusingRmd ["/", "/a", "/b", "/a/c"]).1 := by
  have aux : ∀ (l issued : List String),
      rmdLoop (fun _ => .ok ()) issued l = (issued ++ l, none) := by
    intro l
    induction l with
    | nil => intro issued; simp [rmdLoop]
    | cons d rest ih =>
      intro issued
      rw [rmdLoop, ih, List.append_assoc]
      rfl
  refine ⟨fun dirs => ?_, rfl, by decide⟩
  unfold rmtreeRmdPhase
  rw [aux]
  rfl

/-! ## C4: the parsing step of `FTPFileSystem._listdir` (`ftpfs.py`) -/

/-- Python `str.split(maxsplit=m)`: runs of whitespace separate tokens,
leading whitespace is skipped, and once `m` splits have been made the
remainder is kept verbatim.  An all-whitespace or empty string yields the
empty list. -/
def pySplitWs : Nat → List Char → List (List Char)
  | 0, l =>
      let l' := l.dropWhile pyIsSpace
      if l' = [] then [] else [l']
  | m + 1, l =>
      let l' := l.dropWhile pyIsSpace
      if l' = [] then []
      else
        l'.takeWhile (fun c => ¬ pyIsSpace c) ::
          pySplitWs m (l'.dropWhile (fun c => ¬ pyIsSpace c))

/-- Python `name.split(" -> ", maxsplit=1)`: the parts before and after the
first occurrence of ` -> `, or `none` when the separator is absent. -/
def splitArrow : List Char → Option (List Char × List Char)
  | [] => none
  | c :: rest =>
      if [' ', '-', '>', ' '].isPrefixOf (c :: rest) then
        some ([], (c :: rest).drop 4)
      else
        match splitArrow rest with
        | some (before, after) => some (c :: before, after)
        | none => none

/-- Exceptions the parsing loop of `_listdir` can raise. -/
inductive ListdirExc where
  | indexError
  | valueError
deriving DecidableEq

instance exceptDecEq {ε α : Type} [DecidableEq ε] [DecidableEq α] :
    DecidableEq (Except ε α) := fun x y =>
  match x, y with
  | .error a, .error b => decidable_of_iff (a = b) (by simp)
  | .error _, .ok _ => .isFalse (by simp)
  | .ok _, .error _ => .isFalse (by simp)
  | .ok a, .ok b => decidable_of_iff (a = b) (by simp)

/-- Python `pathlib.Path(path) / name` for listing entries: an absolute name
replaces the base, otherwise the name is appended with one separator. -/
def pyPathJoin (path name : String) : String :=
  if name.data.take 1 = ['/'] then name
  else if path.data.getLast? = some '/' then String.mk (path.data ++ name.data)
  else String.mk (path.data ++ '/' :: name.data)

/-- Embedding of one iteration of the parsing loop in
`FTPFileSystem._listdir`: skip empty and short lines, extract the name as
`entry.strip().split(maxsplit=8).pop()` (IndexError on an all-whitespace
line), skip `.` and `..`, unpack `name.split(" -> ", maxsplit=1)` for
symlink lines (ValueError when ` -> ` is absent), then classify by the
leading `d`. -/
def parseEntry (path : String) (acc : List String × List String) (entry : String) :
    Except ListdirExc (List String × List String) :=
  if entry.data = [] ∨ entry.data.length < 10 then .ok acc
  else
    match (pySplitWs 8 (pyStrip entry.data)).getLast? with
    | none => .error .indexError
    | some name =>
      if name = ".".data ∨ name = "..".data then .ok acc
      else
        match
          (if entry.data.take 1 = ['l'] then
            match splitArrow name with
            | some (before, _) => Except.ok before
            | none => Except.error ListdirExc.valueError
          else Except.ok name) with
        | .error e => .error e
        | .ok name' =>
          let abspath := pyPathJoin path (String.mk name')
          if entry.data.take 1 = ['d'] then .ok (acc.1 ++ [abspath], acc.2)
          else .ok (acc.1, acc.2 ++ [abspath])

/-- Embedding of the full parsing loop of `_listdir` over the collected
`LIST -a` lines, threading the accumulated `dirs`/`nondirs`. -/
def parseListdir (path : String) :
    List String × List String → List String →
      Except ListdirExc (List String × List String)
  | acc, [] => .ok acc
  | acc, e :: rest =>
      match parseEntry path acc e with
      | .error ex => .error ex
      | .ok acc' => parseListdir path acc' rest

/-- The parsing step of `_listdir` starting from empty `dirs`/`nondirs`. -/
def parseListdirAll (path : String) (entries : List String) :
    Except ListdirExc (List String × List String) :=
  parseListdir path ([], []) entries

/-- The name field of a line as the claim words it: the last element of a
whitespace split with `maxsplit=8`. -/
def entryRawName (entry : String) : List Char :=
  (pySplitWs 8 (pyStrip entry.data)).getLastD []

/-- The part of a name before ` -> ` (the whole name when absent). -/
def beforeArrow (name : List Char) : List Char :=
  match splitArrow name with
  | some (before, _) => before
  | none => name

/-- Whether a line survives the claim's filters: not empty, not shorter
than 10 characters, and its name is neither `.` nor `..`. -/
def entryKept (entry : String) : Bool :=
  decide (¬ (entry.data = [] ∨ entry.data.length < 10)) &&
    decide (¬ (entryRawName entry = ".".data ∨ entryRawName entry = "..".data))

/-- The claim's final name for a surviving line: for lines beginning with
`l`, only the part of the name before ` -> `. -/
def entryFinalName (entry : String) : List Char :=
  if entry.data.take 1 = ['l'] then beforeArrow (entryRawName entry)
  else entryRawName entry

/-- Classification of one line as the claim describes it: a `d` line
contributes `path/name` to `dirs`, any other surviving line to `files`. -/
def claimEntry (path : String) (e : String) : List String × List String :=
  if entryKept e then
    if e.data.take 1 = ['d'] then ([pyPathJoin path (String.mk (entryFinalName e))], [])
    else ([], [pyPathJoin path (String.mk (entryFinalName e))])
  else ([], [])

/-- The classification of a list of raw `LIST -a` lines as the claim
describes it, preserving line order within each list. -/
def claimListdir (path : String) : List String → List String × List String
  | [] => ([], [])
  | e :: rest =>
      let tail := claimListdir path rest
      ((claimEntry path e).1 ++ tail.1, (claimEntry path e).2 ++ tail.2)

theorem claimListdir_nil (path : String) : claimListdir path [] = ([], []) := rfl

theorem claimListdir_cons (path e : String) (rest : List String) :
    claimListdir path (e :: rest)
      = ((claimEntry path e).1 ++ (claimListdir path rest).1,
         (claimEntry path e).2 ++ (claimListdir path rest).2) := rfl

/-- Lines on which the code's parsing cannot raise: every line either is
discarded, or has a non-whitespace name field which, when the line begins
with `l` and is not `.`/`..`, contains ` -> `. -/
def entryOk (entry : String) : Bool :=
  if entry.data = [] ∨ entry.data.length < 10 then true
  else
    match (pySplitWs 8 (pyStrip entry.data)).getLast? with
    | none => false
    | some name =>
      if name = ".".data ∨ name = "..".data then true
      else if entry.data.take 1 = ['l'] then (splitArrow name).isSome else true

/-- C4 counterexample: a line of at least 10 characters beginning with `l`
whose name field lacks ` -> ` makes the unpacking
`name, _ = name.split(" -> ", maxsplit=1)` raise `ValueError`, so the code
raises instead of classifying the line into `files` as the claim states. -/
theorem listdir_parse_counterexample :
    parseListdirAll "/" ["lrwxrwxrwx   1 owner group          11 Oct 27 09:17 symlink"]
      = .error .valueError ∧
    (Except.error ListdirExc.valueError :
        Except ListdirExc (List String × List String))
      ≠ .ok ([], ["/symlink"]) := by
  decide

theorem getLastD_of_getLast? {l : List (List Char)} {name : List Char}
    (h : l.getLast? = some name) : l.getLastD [] = name := by
  rw [List.getLastD_eq_getLast?, h]
  rfl

theorem entryKept_false_of_short {e : String}
    (hshort : e.data = [] ∨ e.data.length < 10) : entryKept e = false := by
  unfold entryKept
  rw [decide_eq_false (not_not_intro hshort), Bool.false_and]

theorem entryKept_false_of_dots {e : String} {name : List Char}
    (hraw : entryRawName e = name)
    (hdots : name = ".".data ∨ name = "..".data) : entryKept e = false := by
  unfold entryKept
  rw [hraw, decide_eq_false (not_not_intro hdots), Bool.and_false]

theorem entryKept_true {e : String} {name : List Char}
    (hshort : ¬ (e.data = [] ∨ e.data.length < 10))
    (hraw : entryRawName e = name)
    (hdots : ¬ (name = ".".data ∨ name = "..".data)) : entryKept e = true := by
  unfold entryKept
  rw [hraw, decide_eq_true hshort, decide_eq_true hdots, Bool.and_self]

theorem claimEntry_not_kept {path : String} {e : String} (hk : entryKept e = false) :
    claimEntry path e = ([], []) := by
  unfold claimEntry
  rw [hk]
  rfl

theorem claimEntry_kept_dir {path : String} {e : String} (hk : entryKept e = true)
    (hd : e.data.take 1 = ['d']) :
    claimEntry path e = ([pyPathJoin path (String.mk (entryFinalName e))], []) := by
  unfold claimEntry
  rw [hk, if_pos rfl, if_pos hd]

theorem claimEntry_kept_file {path : String} {e : String} (hk : entryKept e = true)
    (hd : ¬ e.data.take 1 = ['d']) :
    claimEntry path e = ([], [pyPathJoin path (String.mk (entryFinalName e))]) := by
  unfold claimEntry
  rw [hk, if_pos rfl, if_neg hd]

theorem entryFinalName_sym {e : String} {name before after : List Char}
    (hl : e.data.take 1 = ['l']) (hraw : entryRawName e = name)
    (harrow : splitArrow name = some (before, after)) :
    entryFinalName e = before := by
  unfold entryFinalName beforeArrow
  rw [if_pos hl, hraw, harrow]

theorem entryFinalName_plain {e : String} {name : List Char}
    (hl : ¬ e.data.take 1 = ['l']) (hraw : entryRawName e = name) :
    entryFinalName e = name := by
  unfold entryFinalName
  rw [if_neg hl, hraw]

theorem parseEntry_eq {path : String} {e : String} (h : entryOk e = true)
    (acc : List String × List String) :
    parseEntry path acc e
      = .ok (acc.1 ++ (claimEntry path e).1, acc.2 ++ (claimEntry path e).2) := by
  unfold entryOk at h
  unfold parseEntry
  by_cases hshort : e.data = [] ∨ e.data.length < 10
  · rw [if_pos hshort, claimEntry_not_kept (entryKept_false_of_short hshort)]
    simp
  · rw [if_neg hshort] at h ⊢
    split
    · rename_i hlast
      rw [hlast] at h
      simp at h
    · rename_i name hlast
      rw [hlast] at h
      have h' : (if name = ".".data ∨ name = "..".data then true
          else if e.data.take 1 = ['l'] then (splitArrow name).isSome else true)
            = true := h
      have hraw : entryRawName e = name := getLastD_of_getLast? hlast
      by_cases hdots : name = ".".data ∨ name = "..".data
      · rw [if_pos hdots, claimEntry_not_kept (entryKept_false_of_dots hraw hdots)]
        simp
      · rw [if_neg hdots] at h' ⊢
        have hkept : entryKept e = true := entryKept_true hshort hraw hdots
        by_cases hl : e.data.take 1 = ['l']
        · rw [if_pos hl] at h'
          split
          · rename_i exc hsym
            rw [if_pos hl] at hsym
            exfalso
            revert hsym
            split
            · intro hsym
              cases hsym
            · rename_i harrow
              rw [harrow] at h'
              intro _
              simp at h'
          · rename_i name' hsym
            rw [if_pos hl] at hsym
            revert hsym
            split
            · rename_i before after harrow
              intro hsym
              cases hsym
              have hfin := entryFinalName_sym hl hraw harrow
              have hd : ¬ e.data.take 1 = ['d'] := by
                rw [hl]
                decide
              rw [if_neg hd, claimEntry_kept_file hkept hd, hfin]
              simp
            · intro hsym
              cases hsym
        · rw [if_neg hl] at h' ⊢
          dsimp only
          have hfin := entryFinalName_plain hl hraw
          by_cases hd : e.data.take 1 = ['d']
          · rw [if_pos hd, claimEntry_kept_dir hkept hd, hfin]
            simp
          · rw [if_neg hd, claimEntry_kept_file hkept hd, hfin]
            simp

/-- C4 (amended): provided every line of at least 10 characters has a
non-whitespace name field and every surviving symlink line's name contains
` -> ` (as genuine `LIST -a` output does), the parsing step of `_listdir`
succeeds and produces exactly the claim's classification: empty and short
lines discarded, name taken as the last element of
`split_whitespace(line, maxsplit=8)`, `.` and `..` skipped, symlink names
truncated before ` -> `, `d` lines appended to `dirs` as `path/name` and
all other surviving lines to `files`, preserving line order; without that
proviso the code raises `IndexError`/`ValueError` instead. -/
theorem listdir_parse_spec (path : String) (entries : List String)
    (h : entries.all entryOk = true) :
    parseListdirAll path entries = .ok (claimListdir path entries) := by
  suffices haux : ∀ (es : List String) (acc : List String × List String),
      es.all entryOk = true →
      parseListdir path acc es
        = .ok (acc.1 ++ (claimListdir path es).1, acc.2 ++ (claimListdir path es).2) by
    have := haux entries ([], []) h
    unfold parseListdirAll
    rw [this]
    simp
  intro es
  induction es with
  | nil =>
    intro acc _
    unfold parseListdir claimListdir
    simp
  | cons e rest ih =>
    intro acc hall
    rw [List.all_cons, Bool.and_eq_true] at hall
    unfold parseListdir
    rw [parseEntry_eq hall.1 acc]
    dsimp only
    rw [ih _ hall.2, claimListdir_cons]
    simp [List.append_assoc]

/-- Concrete instantiation of `listdir_parse_spec` on the listing lines of
`test_listdir_bad_entry`. -/
theorem listdir_parse_spec_witness :
    parseListdirAll "/"
        ["drwxr-xr-x   2 owner group        4096 Oct 27 09:12 dir",
         "-rw-r--r--   1 owner group         512 Oct 27 09:15 text.txt",
         "lrwxrwxrwx   1 owner group          11 Oct 27 09:17 symlink -> test.txt",
         "", "error",
         "drwxr-xr-x   2 owner group        4096 Oct 27 09:20 .",
         "drwxr-xr-x   2 owner group        4096 Oct 27 09:21 .."]
      = .ok (["/dir"], ["/text.txt", "/symlink"]) := by
  rw [listdir_parse_spec _ _ (by decide)]
  decide

/-! ## C9: `PathTrie` (`pyftpkit/_pathtrie.py`)

Modelled from the spec: the module `pyftpkit/_pathtrie.py` is imported by
`ftpfs.py` and exercised by `tests/pyftpkit/test_pathtrie.py` but is not
among the provided sources, so the trie is reconstructed from §4.4 of the
specification: nodes hold an insertion-ordered child map keyed by path
segment; `insert` normalizes the input via POSIX `normpath` (resolving `.`
and `..`, collapsing duplicate separators, stripping the trailing
separator), splits on `/` (an absolute path contributing a leading empty
segment for the root, which enumerates as `/`), and creates missing
children at the tail of the child map; enumeration is depth-first
pre-order; empty input inserts nothing.  Paths are represented as their
segment lists. -/

/-- Modelled from the spec: a trie node, holding the insertion-ordered
child map. -/
inductive PathTrie where
  | mk : List (String × PathTrie) → PathTrie

/-- Modelled from the spec: scan a node's child map for the segment `s`,
descending with `sub` into the matching child, or creating a fresh child
at the tail of the map with children `sub []`. -/
def insertF (s : String) (sub : List (String × PathTrie) → List (String × PathTrie)) :
    List (String × PathTrie) → List (String × PathTrie)
  | [] => [(s, .mk (sub []))]
  | (k, t) :: f =>
      match t with
      | .mk cs => if s = k then (k, .mk (sub cs)) :: f else (k, .mk cs) :: insertF s sub f

/-- Modelled from the spec: insert a normalized segment list into a forest
(the child map of a node), creating missing children at the tail. -/
def insertSegs : List String → List (String × PathTrie) → List (String × PathTrie)
  | [], f => f
  | s :: rest, f => insertF s (insertSegs rest) f

mutual
/-- Depth-first pre-order enumeration in child-map order (the order of
§4.4's words: "child iteration order is insertion order"), one subtree. -/
def pathsT (pre : List String) (k : String) : PathTrie → List (List String)
  | .mk cs => (pre ++ [k]) :: pathsC (pre ++ [k]) cs

/-- Depth-first pre-order enumeration in child-map order, a forest. -/
def pathsC (pre : List String) : List (String × PathTrie) → List (List String)
  | [] => []
  | (k, t) :: f => pathsT pre k t ++ pathsC pre f
end

mutual
/-- The enumeration order the recorded test vectors pin down
(`test_insert` expects `["/a/b", "/c"]` to enumerate as
`["/", "/c", "/a", "/a/b"]`): a stack-driven depth-first traversal, which
visits each node before its children but visits siblings in reverse
child-map order — one subtree. -/
def rpathsT (pre : List String) (k : String) : PathTrie → List (List String)
  | .mk cs => (pre ++ [k]) :: rpathsC (pre ++ [k]) cs

/-- Stack-driven depth-first enumeration of a forest: the sibling pushed
last is popped (and its whole subtree emitted) first. -/
def rpathsC (pre : List String) : List (String × PathTrie) → List (List String)
  | [] => []
  | (k, t) :: f => rpathsC pre f ++ rpathsT pre k t
end

/-- Segment splitting of a character list on `/`. -/
def splitSlashAux : List Char → List Char → List (List Char)
  | acc, [] => [acc.reverse]
  | acc, c :: rest =>
      if c = '/' then acc.reverse :: splitSlashAux [] rest
      else splitSlashAux (c :: acc) rest

/-- Modelled from the spec: the component resolution of POSIX `normpath` —
drop empty and `.` components, let `..` cancel the preceding component
(except at the root of an absolute path or after an unconsumed leading
`..` of a relative path). -/
def normComps (isAbs : Bool) : List String → List String → List String
  | acc, [] => acc.reverse
  | acc, c :: rest =>
      if c = "" ∨ c = "." then normComps isAbs acc rest
      else if c = ".." then
        match acc with
        | [] => if isAbs then normComps isAbs [] rest else normComps isAbs [".."] rest
        | a :: tl =>
            if a = ".." then normComps isAbs (c :: acc) rest
            else normComps isAbs tl rest
      else normComps isAbs (c :: acc) rest

/-- Modelled from the spec: the segment list a path contributes to the
trie — nothing for the empty string; otherwise the POSIX-normalized
components, preceded by the empty root segment when the path is absolute
(`/` enumerates as that root segment alone), and `.` for a relative path
that normalizes to nothing. -/
def normSegs (path : String) : List String :=
  if path = "" then []
  else
    let isAbs := path.data.take 1 = ['/']
    let comps := normComps isAbs [] ((splitSlashAux [] path.data).map String.mk)
    if isAbs then "" :: comps
    else if comps = [] then ["."]
    else comps

/-- The trie built by inserting a list of paths in order. -/
def buildTrie (ps : List String) : List (String × PathTrie) :=
  ps.foldl (fun f p => insertSegs (normSegs p) f) []

/-- The non-empty prefixes of a segment list: the ancestor paths the claim
speaks about. -/
def segPrefixes (segs : List String) : List (List String) :=
  (List.range segs.length).map (fun i => segs.take (i + 1))

/-- The keys of a forest, in order. -/
def forestKeys (f : List (String × PathTrie)) : List String :=
  f.map Prod.fst

mutual
/-- Structural well-formedness of a subtree: duplicate-free keys at every
node. -/
def WFT : PathTrie → Prop
  | .mk cs => WFC cs

/-- Structural well-formedness of a forest. -/
def WFC : List (String × PathTrie) → Prop
  | [] => True
  | (k, t) :: f => (¬ k ∈ forestKeys f) ∧ WFT t ∧ WFC f
end

open List

/-- Predicate that `a` occurs before `b` in `l` (the two-element list `[a, b]` embeds as
a sublist). -/
def Before (l : List α) (a b : α) : Prop :=
  [a, b] <+ l

instance {α : Type} [DecidableEq α] (l : List α) (a b : α) :
    Decidable (Before l a b) := by
  unfold Before
  infer_instance

theorem rpathsC_nil (pre : List String) : rpathsC pre [] = [] := rfl

theorem rpathsC_cons (pre : List String) (k : String) (cs f : List (String × PathTrie)) :
    rpathsC pre ((k, .mk cs) :: f)
      = rpathsC pre f ++ ((pre ++ [k]) :: rpathsC (pre ++ [k]) cs) := rfl

theorem insertF_nil (s : String) (sub : List (String × PathTrie) → List (String × PathTrie)) :
    insertF s sub [] = [(s, .mk (sub []))] := rfl

theorem insertF_cons (s k : String) (sub : List (String × PathTrie) → List (String × PathTrie))
    (cs f : List (String × PathTrie)) :
    insertF s sub ((k, .mk cs) :: f)
      = if s = k then (k, .mk (sub cs)) :: f else (k, .mk cs) :: insertF s sub f := rfl

theorem insertSegs_nil (f : List (String × PathTrie)) : insertSegs [] f = f := rfl

theorem insertSegs_cons (s : String) (rest : List String) (f : List (String × PathTrie)) :
    insertSegs (s :: rest) f = insertF s (insertSegs rest) f := rfl

theorem WFC_nil : WFC [] := trivial

theorem WFC_cons {k : String} {cs f : List (String × PathTrie)} :
    WFC ((k, .mk cs) :: f) ↔ (¬ k ∈ forestKeys f) ∧ WFC cs ∧ WFC f := Iff.rfl

theorem mem_segPrefixes {segs x : List String} :
    x ∈ segPrefixes segs ↔ x ≠ [] ∧ x <+: segs := by
  unfold segPrefixes
  rw [List.mem_map]
  constructor
  · rintro ⟨i, hi, rfl⟩
    rw [List.mem_range] at hi
    refine ⟨?_, List.take_prefix _ _⟩
    have : (segs.take (i + 1)).length = i + 1 := by
      rw [List.length_take]
      omega
    intro hnil
    rw [hnil] at this
    simp at this
  · rintro ⟨hne, hpre⟩
    refine ⟨x.length - 1, ?_, ?_⟩
    · rw [List.mem_range]
      have h1 : 0 < x.length := List.length_pos.mpr hne
      have h2 : x.length ≤ segs.length := hpre.length_le
      omega
    · have h1 : 0 < x.length := List.length_pos.mpr hne
      have hidx : x.length - 1 + 1 = x.length := by omega
      rw [hidx]
      exact (List.prefix_iff_eq_take.mp hpre).symm

theorem segPrefixes_cons (s : String) (rest : List String) :
    segPrefixes (s :: rest) = [s] :: (segPrefixes rest).map (s :: ·) := by
  unfold segPrefixes
  rw [List.length_cons, List.range_succ_eq_map, List.map_cons, List.map_map, List.map_map]
  congr 1

theorem rpathsC_shape (pre : List String) (f : List (String × PathTrie)) :
    ∀ x ∈ rpathsC pre f, ∃ k q, k ∈ forestKeys f ∧ x = pre ++ k :: q := by
  match f with
  | [] =>
    intro x hx
    rw [rpathsC_nil] at hx
    cases hx
  | (k, .mk cs) :: f' =>
    intro x hx
    rw [rpathsC_cons] at hx
    rcases List.mem_append.mp hx with hx | hx
    · obtain ⟨k2, q2, hk2, rfl⟩ := rpathsC_shape pre f' x hx
      exact ⟨k2, q2, by simp [forestKeys] at hk2 ⊢; exact Or.inr hk2, rfl⟩
    · rcases List.mem_cons.mp hx with rfl | hx
      · exact ⟨k, [], by simp [forestKeys], rfl⟩
      · obtain ⟨k3, q3, _, rfl⟩ := rpathsC_shape (pre ++ [k]) cs x hx
        exact ⟨k, k3 :: q3, by simp [forestKeys], by simp⟩

theorem forestKeys_cons (k : String) (t : PathTrie) (f : List (String × PathTrie)) :
    forestKeys ((k, t) :: f) = k :: forestKeys f := rfl

theorem forestKeys_insertF (s : String)
    (sub : List (String × PathTrie) → List (String × PathTrie))
    (f : List (String × PathTrie)) :
    forestKeys (insertF s sub f)
      = if s ∈ forestKeys f then forestKeys f else forestKeys f ++ [s] := by
  induction f with
  | nil => simp [insertF_nil, forestKeys]
  | cons hd f' ih =>
    obtain ⟨k, t⟩ := hd
    obtain ⟨cs⟩ := t
    rw [insertF_cons]
    by_cases hs : s = k
    · subst hs
      rw [if_pos rfl, forestKeys_cons, forestKeys_cons]
      rw [if_pos (by simp)]
    · rw [if_neg hs, forestKeys_cons, forestKeys_cons, ih]
      by_cases hmem : s ∈ forestKeys f'
      · rw [if_pos hmem, if_pos (by simp [hmem])]
      · rw [if_neg hmem, if_neg (by simp [hmem, hs]), List.cons_append]

theorem WFC_insertSegs (segs : List String) (f : List (String × PathTrie))
    (h : WFC f) : WFC (insertSegs segs f) := by
  induction segs generalizing f with
  | nil => exact h
  | cons s rest ih =>
    induction f with
    | nil =>
      rw [insertSegs_cons, insertF_nil]
      exact WFC_cons.mpr ⟨by simp [forestKeys], ih [] trivial, trivial⟩
    | cons hd f' ihf =>
      obtain ⟨k, t⟩ := hd
      obtain ⟨cs⟩ := t
      obtain ⟨hk, hcs, hf'⟩ := WFC_cons.mp h
      rw [insertSegs_cons, insertF_cons]
      by_cases hs : s = k
      · rw [if_pos hs]
        exact WFC_cons.mpr ⟨hk, ih cs hcs, hf'⟩
      · rw [if_neg hs]
        refine WFC_cons.mpr ⟨?_, hcs, ihf hf'⟩
        rw [forestKeys_insertF]
        by_cases hmem : s ∈ forestKeys f'
        · rw [if_pos hmem]
          exact hk
        · rw [if_neg hmem]
          simp only [List.mem_append, List.mem_singleton]
          rintro (hkf | rfl)
          · exact hk hkf
          · exact hs rfl

theorem rpathsC_insert_empty (segs : List String) (pre : List String) :
    rpathsC pre (insertSegs segs []) = (segPrefixes segs).map (pre ++ ·) := by
  induction segs generalizing pre with
  | nil =>
    rw [insertSegs_nil, rpathsC_nil]
    simp [segPrefixes]
  | cons s rest ih =>
    rw [insertSegs_cons, insertF_nil, rpathsC_cons, rpathsC_nil, List.nil_append]
    rw [ih, segPrefixes_cons, List.map_cons, List.map_map]
    congr 1
    apply List.map_congr_left
    intro p _
    simp

theorem mem_rpathsC_insertSegs (segs : List String) (f : List (String × PathTrie))
    (pre x : List String) :
    x ∈ rpathsC pre (insertSegs segs f)
      ↔ x ∈ rpathsC pre f ∨ ∃ p ∈ segPrefixes segs, x = pre ++ p := by
  induction segs generalizing f pre with
  | nil =>
    rw [insertSegs_nil]
    simp [segPrefixes]
  | cons s rest ih =>
    induction f with
    | nil =>
      rw [insertSegs_cons, insertF_nil, rpathsC_cons]
      simp only [rpathsC_nil, List.nil_append, List.not_mem_nil, false_or, List.mem_cons]
      rw [ih, segPrefixes_cons]
      simp only [rpathsC_nil, List.not_mem_nil, false_or, List.mem_cons, List.mem_map]
      constructor
      · rintro (rfl | ⟨p, hp, rfl⟩)
        · exact ⟨[s], Or.inl rfl, by simp⟩
        · exact ⟨s :: p, Or.inr ⟨p, hp, rfl⟩, by simp⟩
      · rintro ⟨p, (rfl | ⟨p', hp', rfl⟩), rfl⟩
        · exact Or.inl rfl
        · exact Or.inr ⟨p', hp', by simp⟩
    | cons hd f' ihf =>
      obtain ⟨k, t⟩ := hd
      obtain ⟨cs⟩ := t
      rw [insertSegs_cons, insertF_cons]
      by_cases hs : s = k
      · subst hs
        rw [if_pos rfl, rpathsC_cons, rpathsC_cons]
        rw [List.mem_append, List.mem_append, List.mem_cons, List.mem_cons, ih,
          segPrefixes_cons]
        simp only [List.mem_cons, List.mem_map]
        constructor
        · rintro (hF | rfl | (hS | ⟨p, hp, rfl⟩))
          · exact Or.inl (Or.inl hF)
          · exact Or.inl (Or.inr (Or.inl rfl))
          · exact Or.inl (Or.inr (Or.inr hS))
          · exact Or.inr ⟨s :: p, Or.inr ⟨p, hp, rfl⟩, by simp⟩
        · rintro ((hF | rfl | hS) | ⟨p, (rfl | ⟨p', hp', rfl⟩), rfl⟩)
          · exact Or.inl hF
          · exact Or.inr (Or.inl rfl)
          · exact Or.inr (Or.inr (Or.inl hS))
          · exact Or.inr (Or.inl (by simp))
          · exact Or.inr (Or.inr (Or.inr ⟨p', hp', by simp⟩))
      · rw [if_neg hs, rpathsC_cons, rpathsC_cons]
        rw [List.mem_append, List.mem_append]
        have hF' : x ∈ rpathsC pre (insertF s (insertSegs rest) f')
            ↔ x ∈ rpathsC pre f' ∨ ∃ p ∈ segPrefixes (s :: rest), x = pre ++ p := ihf
        constructor
        · rintro (hF'2 | hA)
          · rcases hF'.mp hF'2 with hF | hE
            · exact Or.inl (Or.inl hF)
            · exact Or.inr hE
          · exact Or.inl (Or.inr hA)
        · rintro ((hF | hA) | hE)
          · exact Or.inl (hF'.mpr (Or.inl hF))
          · exact Or.inr hA
          · exact Or.inl (hF'.mpr (Or.inr hE))

theorem rpathsC_nodup (pre : List String) (f : List (String × PathTrie))
    (h : WFC f) : (rpathsC pre f).Nodup := by
  match f with
  | [] =>
    rw [rpathsC_nil]
    exact List.nodup_nil
  | (k, .mk cs) :: f' =>
    obtain ⟨hk, hcs, hf'⟩ := WFC_cons.mp h
    rw [rpathsC_cons]
    have hS : (rpathsC (pre ++ [k]) cs).Nodup := rpathsC_nodup (pre ++ [k]) cs hcs
    have hhead : (pre ++ [k]) ∉ rpathsC (pre ++ [k]) cs := by
      intro hmem
      obtain ⟨k3, q3, _, heq⟩ := rpathsC_shape _ _ _ hmem
      have := congrArg List.length heq
      simp at this
    refine List.Nodup.append (rpathsC_nodup pre f' hf')
      (List.nodup_cons.mpr ⟨hhead, hS⟩) ?_
    intro a haF haHS
    obtain ⟨k2, q2, hk2, rfl⟩ := rpathsC_shape pre f' a haF
    rcases List.mem_cons.mp haHS with heq | haS
    · have h2 := List.append_cancel_left heq
      cases h2
      exact hk hk2
    · obtain ⟨k3, q3, _, heq⟩ := rpathsC_shape _ _ _ haS
      rw [List.append_assoc] at heq
      have h2 := List.append_cancel_left heq
      cases h2
      exact hk hk2

theorem rpathsC_parent_first (pre : List String) (f : List (String × PathTrie))
    (h : WFC f) :
    (rpathsC pre f).Pairwise (fun a b => ¬ (b ≠ a ∧ b <+: a)) := by
  match f with
  | [] =>
    rw [rpathsC_nil]
    exact List.Pairwise.nil
  | (k, .mk cs) :: f' =>
    obtain ⟨hk, hcs, hf'⟩ := WFC_cons.mp h
    rw [rpathsC_cons, List.pairwise_append]
    refine ⟨rpathsC_parent_first pre f' hf', ?_, ?_⟩
    · rw [List.pairwise_cons]
      refine ⟨?_, rpathsC_parent_first (pre ++ [k]) cs hcs⟩
      rintro b hb ⟨hne, hpre⟩
      obtain ⟨k3, q3, _, rfl⟩ := rpathsC_shape _ _ _ hb
      have hlen := hpre.length_le
      simp at hlen
    · rintro a haF b hbHS ⟨hne, hpre⟩
      obtain ⟨k2, q2, hk2, rfl⟩ := rpathsC_shape pre f' a haF
      rcases List.mem_cons.mp hbHS with rfl | hbS
      · have h2 := (List.prefix_append_right_inj pre).mp hpre
        obtain ⟨t, ht⟩ := h2
        rw [List.singleton_append] at ht
        cases ht
        exact hk hk2
      · obtain ⟨k3, q3, _, rfl⟩ := rpathsC_shape _ _ _ hbS
        rw [List.append_assoc] at hpre
        have h2 := (List.prefix_append_right_inj pre).mp hpre
        obtain ⟨t, ht⟩ := h2
        rw [List.singleton_append, List.cons_append] at ht
        cases ht
        exact hk hk2

theorem rpathsC_sublist_insert (segs : List String) (f : List (String × PathTrie))
    (pre : List String) :
    rpathsC pre f <+ rpathsC pre (insertSegs segs f) := by
  induction segs generalizing f pre with
  | nil =>
    rw [insertSegs_nil]
  | cons s rest ih =>
    induction f with
    | nil =>
      rw [rpathsC_nil]
      exact List.nil_sublist _
    | cons hd f' ihf =>
      obtain ⟨k, t⟩ := hd
      obtain ⟨cs⟩ := t
      rw [insertSegs_cons, insertF_cons]
      by_cases hs : s = k
      · rw [if_pos hs, rpathsC_cons, rpathsC_cons]
        exact List.Sublist.append (List.Sublist.refl _)
          (List.Sublist.cons₂ _ (ih cs (pre ++ [k])))
      · rw [if_neg hs, rpathsC_cons, rpathsC_cons]
        exact List.Sublist.append ihf (List.Sublist.refl _)

theorem snoc_eq_append_cons {α : Type} {q : List α} {x : α} {pre : List α} {c : α}
    {r : List α} (h : q ++ [x] = pre ++ c :: r) :
    (r = [] ∧ q = pre ∧ x = c) ∨ (∃ r', r = r' ++ [x] ∧ q = pre ++ c :: r') := by
  rcases List.eq_nil_or_concat r with rfl | ⟨r', z, rfl⟩
  · left
    have hlen : q.length = pre.length := by
      have := congrArg List.length h
      simp at this
      omega
    obtain ⟨h1, h2⟩ := List.append_inj h hlen
    refine ⟨rfl, h1, ?_⟩
    simpa using h2
  · right
    rw [List.concat_eq_append] at h ⊢
    have h' : q ++ [x] = (pre ++ c :: r') ++ [z] := by
      rw [h]
      simp
    have hlen : q.length = (pre ++ c :: r').length := by
      have := congrArg List.length h'
      simp only [List.length_append, List.length_cons, List.length_nil] at this ⊢
      omega
    obtain ⟨h1, h2⟩ := List.append_inj h' hlen
    have hz : x = z := by simpa using h2
    subst hz
    exact ⟨r', rfl, h1⟩

theorem rpathsC_new_sibling (segs : List String) (f : List (String × PathTrie))
    (pre q : List String) (x y : String) (hwf : WFC f)
    (ha : (q ++ [x]) ∈ rpathsC pre f)
    (hb : (q ++ [y]) ∈ rpathsC pre (insertSegs segs f))
    (hbnew : (q ++ [y]) ∉ rpathsC pre f) :
    Before (rpathsC pre (insertSegs segs f)) (q ++ [y]) (q ++ [x]) := by
  induction segs generalizing f pre with
  | nil =>
    rw [insertSegs_nil] at hb
    exact absurd hb hbnew
  | cons s rest ih =>
    induction f with
    | nil =>
      rw [rpathsC_nil] at ha
      cases ha
    | cons hd f' ihf =>
      obtain ⟨k, t⟩ := hd
      obtain ⟨cs⟩ := t
      obtain ⟨hk, hcs, hf'⟩ := WFC_cons.mp hwf
      rw [insertSegs_cons, insertF_cons] at hb ⊢
      by_cases hs : s = k
      · subst hs
        rw [if_pos rfl] at hb ⊢
        rw [rpathsC_cons] at ha hbnew hb ⊢
        rcases List.mem_append.mp hb with hbF | hbHS
        · exact absurd (List.mem_append.mpr (Or.inl hbF)) hbnew
        rcases List.mem_cons.mp hbHS with hbh | hbS'
        · exact absurd
            (List.mem_append.mpr (Or.inr (List.mem_cons.mpr (Or.inl hbh)))) hbnew
        have hbnotS : (q ++ [y]) ∉ rpathsC (pre ++ [s]) cs := fun hmem =>
          hbnew (List.mem_append.mpr (Or.inr (List.mem_cons.mpr (Or.inr hmem))))
        obtain ⟨k3, q3, _, hbshape⟩ := rpathsC_shape _ _ _ hbS'
        have hb' : q ++ [y] = pre ++ s :: (k3 :: q3) := by
          rw [hbshape, List.append_assoc]
          rfl
        rcases List.mem_append.mp ha with haF | haHS
        · exfalso
          obtain ⟨k2, q2, hk2, hashape⟩ := rpathsC_shape pre f' _ haF
          rcases snoc_eq_append_cons hashape with ⟨rfl, rfl, rfl⟩ | ⟨r', hr', hq⟩
          · have h2 := List.append_cancel_left hb'
            cases h2
          · rcases snoc_eq_append_cons hb' with ⟨habs, _, _⟩ | ⟨r2, hr2, hq2⟩
            · cases habs
            · rw [hq] at hq2
              have h2 := List.append_cancel_left hq2
              cases h2
              exact hk hk2
        rcases List.mem_cons.mp haHS with hah | haS
        · exfalso
          rcases snoc_eq_append_cons (hah.trans (by rfl : pre ++ [s] = pre ++ s :: []))
            with ⟨_, rfl, rfl⟩ | ⟨r', hr', hq⟩
          · have h2 := List.append_cancel_left hb'
            cases h2
          · simp at hr'
        · have hBefore := ih cs (pre ++ [s]) hcs haS hbS' hbnotS
          unfold Before at hBefore ⊢
          exact (hBefore.cons _).trans (List.sublist_append_right _ _)
      · rw [if_neg hs] at hb ⊢
        rw [rpathsC_cons] at ha hbnew hb ⊢
        have hbF' : (q ++ [y]) ∈ rpathsC pre (insertF s (insertSegs rest) f') := by
          rcases List.mem_append.mp hb with h1 | h1
          · exact h1
          · rcases List.mem_cons.mp h1 with h2 | h2
            · exact absurd
                (List.mem_append.mpr (Or.inr (List.mem_cons.mpr (Or.inl h2)))) hbnew
            · exact absurd
                (List.mem_append.mpr (Or.inr (List.mem_cons.mpr (Or.inr h2)))) hbnew
        have hbnotF : (q ++ [y]) ∉ rpathsC pre f' := fun hm =>
          hbnew (List.mem_append.mpr (Or.inl hm))
        have hbchar := (mem_rpathsC_insertSegs (s :: rest) f' pre (q ++ [y])).mp hbF'
        rcases hbchar with hbF | ⟨p, hp, hbeq⟩
        · exact absurd hbF hbnotF
        obtain ⟨hpne, hppre⟩ := mem_segPrefixes.mp hp
        obtain ⟨p0, p', rfl⟩ := List.exists_cons_of_ne_nil hpne
        have hp0 : p0 = s := by
          obtain ⟨tt, htt⟩ := hppre
          rw [List.cons_append] at htt
          cases htt
          rfl
        rw [hp0] at hbeq
        rcases List.mem_append.mp ha with haF | haHS
        · have hBefore := ihf hf' haF hbF' hbnotF
          unfold Before at hBefore ⊢
          exact hBefore.trans (List.sublist_append_left _ _)
        rcases List.mem_cons.mp haHS with hah | haS
        · have h1 : [q ++ [y]] <+ rpathsC pre (insertF s (insertSegs rest) f') :=
            List.singleton_sublist.mpr hbF'
          have h2 : [q ++ [x]] <+ (pre ++ [k]) :: rpathsC (pre ++ [k]) cs :=
            List.singleton_sublist.mpr (List.mem_cons.mpr (Or.inl hah))
          exact List.Sublist.append h1 h2
        · exfalso
          obtain ⟨k3, q3, _, hashape⟩ := rpathsC_shape _ _ _ haS
          have ha' : q ++ [x] = pre ++ k :: (k3 :: q3) := by
            rw [hashape, List.append_assoc]
            rfl
          rcases snoc_eq_append_cons ha' with ⟨habs, _, _⟩ | ⟨r', hr', hq⟩
          · cases habs
          · rcases snoc_eq_append_cons hbeq with ⟨hpnil, hq2, hy⟩ | ⟨r2, hr2, hq2⟩
            · rw [hq2] at hq
              have := congrArg List.length hq
              simp at this
            · rw [hq] at hq2
              have h2 := List.append_cancel_left hq2
              cases h2
              exact hs rfl

theorem buildTrie_wf (ps : List String) : WFC (buildTrie ps) := by
  unfold buildTrie
  have haux : ∀ (l : List String) (F : List (String × PathTrie)), WFC F →
      WFC (l.foldl (fun f p => insertSegs (normSegs p) f) F) := by
    intro l
    induction l with
    | nil => intro F h; exact h
    | cons p l ihl =>
      intro F h
      rw [List.foldl_cons]
      exact ihl _ (WFC_insertSegs _ _ h)
  exact haux ps [] trivial

theorem mem_rpathsC_foldl (l : List String) (F : List (String × PathTrie))
    (x : List String) :
    x ∈ rpathsC [] (l.foldl (fun f p => insertSegs (normSegs p) f) F)
      ↔ x ∈ rpathsC [] F ∨ ∃ p ∈ l, x ∈ segPrefixes (normSegs p) := by
  induction l generalizing F with
  | nil => simp
  | cons p l ihl =>
    rw [List.foldl_cons, ihl, mem_rpathsC_insertSegs]
    simp only [List.mem_cons, List.nil_append]
    constructor
    · rintro ((hF | ⟨pp, hpp, rfl⟩) | ⟨p2, hp2, hx⟩)
      · exact Or.inl hF
      · exact Or.inr ⟨p, Or.inl rfl, by simpa using hpp⟩
      · exact Or.inr ⟨p2, Or.inr hp2, hx⟩
    · rintro (hF | ⟨p2, (rfl | hp2), hx⟩)
      · exact Or.inl (Or.inl hF)
      · exact Or.inl (Or.inr ⟨x, hx, by simp⟩)
      · exact Or.inr ⟨p2, hp2, hx⟩

/-- C9 counterexample: inserting `"/a/b"` then `"/c"`, the trie enumerates
as `/`, `/c`, `/a`, `/a/b` (the order `test_insert` records, here as
segment lists): the sibling `/c`, inserted second, is yielded before the
sibling `/a`, inserted first, so siblings are not yielded in first-insertion
order — that order would be the child-map pre-order `pathsC`, which gives a
different list. -/
theorem pathtrie_sibling_counterexample :
    rpathsC [] (buildTrie ["/a/b", "/c"])
      = [[""], ["", "c"], ["", "a"], ["", "a", "b"]] ∧
    Before (rpathsC [] (buildTrie ["/a/b", "/c"])) ["", "c"] ["", "a"] ∧
    ¬ Before (rpathsC [] (buildTrie ["/a/b", "/c"])) ["", "a"] ["", "c"] ∧
    pathsC [] (buildTrie ["/a/b", "/c"])
      = [[""], ["", "a"], ["", "a", "b"], ["", "c"]] ∧
    rpathsC [] (buildTrie ["/a/b", "/c"]) ≠ pathsC [] (buildTrie ["/a/b", "/c"]) := by
  decide

/-- C9 (amended): for every list of inserted path strings, the trie
enumeration (the stack-driven depth-first order the test suite records)
yields each distinct ancestor path — under POSIX normalization, with paths
represented by their segment lists and the root `/` by the leading empty
segment — exactly once; yields every parent before each of its
descendants; and yields siblings in reverse first-insertion order: a
further insertion keeps all previously yielded paths in their relative
order, and a newly created path is yielded before every already-existing
sibling. -/
theorem pathtrie_enumeration_spec (ps : List String) :
    (rpathsC [] (buildTrie ps)).Nodup ∧
    (∀ x, x ∈ rpathsC [] (buildTrie ps) ↔ ∃ p ∈ ps, x ≠ [] ∧ x <+: normSegs p) ∧
    (rpathsC [] (buildTrie ps)).Pairwise (fun a b => ¬ (b ≠ a ∧ b <+: a)) ∧
    (∀ p', rpathsC [] (buildTrie ps)
        <+ rpathsC [] (insertSegs (normSegs p') (buildTrie ps))) ∧
    (∀ p' (q : List String) (x y : String),
      (q ++ [x]) ∈ rpathsC [] (buildTrie ps) →
      (q ++ [y]) ∈ rpathsC [] (insertSegs (normSegs p') (buildTrie ps)) →
      (q ++ [y]) ∉ rpathsC [] (buildTrie ps) →
      Before (rpathsC [] (insertSegs (normSegs p') (buildTrie ps)))
        (q ++ [y]) (q ++ [x])) := by
  have hwf := buildTrie_wf ps
  refine ⟨rpathsC_nodup [] _ hwf, ?_, rpathsC_parent_first [] _ hwf,
    fun p' => rpathsC_sublist_insert _ _ _,
    fun p' q x y ha hb hbn => rpathsC_new_sibling _ _ [] q x y hwf ha hb hbn⟩
  intro x
  unfold buildTrie
  rw [mem_rpathsC_foldl]
  simp only [rpathsC_nil, List.not_mem_nil, false_or, mem_segPrefixes]

/-- Concrete instantiation of `pathtrie_enumeration_spec`: membership of
`/1` in the trie of `test_get_all_unique_paths`, and the new sibling `/1/3`
being yielded before the existing `/1/2` after a further insertion. -/
theorem pathtrie_enumeration_spec_witness :
    ["", "1"] ∈ rpathsC [] (buildTrie ["/1/2", "/2/3"]) ∧
    Before (rpathsC [] (insertSegs (normSegs "/1/3") (buildTrie ["/1/2", "/2/3"])))
      ["", "1", "3"] ["", "1", "2"] :=
  ⟨((pathtrie_enumeration_spec ["/1/2", "/2/3"]).2.1 ["", "1"]).mpr
      ⟨"/1/2", by decide, by decide, by decide⟩,
   (pathtrie_enumeration_spec ["/1/2", "/2/3"]).2.2.2.2 "/1/3" ["", "1"] "2" "3"
      (by decide) (by decide) (by decide)⟩

end Pyftpkit
